import Mathlib

/-!
Verification of the staged expression evaluator in `src/main.rs`.

The Rust program defines a two-sorted value domain (`NumVal` wrapping an
`i64`, `BoolVal` wrapping a `bool`), variable cells (`VariableExp`: an
`i32` id drawn from the global `var_counter`, plus an `Rc<RefCell<T>>`
slot), an expression trait with `interpret` and `stage`, and a staged
expression trait with `run`.

The embedding makes the mutable state explicit: a state `St` carries the
global id counter (an `i32`, so incrementing wraps two's-complement style,
matching release-mode Rust; debug builds would panic at the same point),
the heap of allocated cells (a cell handle is its index in the allocation
list), and an instrumentation count of binder-function applications
(the calls `(self.exp2)(...)` at the two places they occur in the source).
`i64` addition in `impl Add for NumVal` likewise wraps.
-/

/-- The two value sorts of the language: `NumVal` (payload `i64`) and
`BoolVal` (payload `bool`). -/
inductive Ty : Type
  | tnum : Ty
  | tbool : Ty
deriving DecidableEq, Repr

/-- The Lean payload type of each sort: `i64` is modelled as `Int`
(wrapped to 64 bits at each addition), `bool` as `Bool`. -/
@[reducible] def Ty.denote : Ty → Type
  | .tnum => Int
  | .tbool => Bool

/-- `Default` for each sort: `NumVal::default()` is 0, `BoolVal::default()`
is `false`. -/
def Ty.defaultVal : (t : Ty) → t.denote
  | .tnum => 0
  | .tbool => false

/-- Two's-complement wraparound of `i64` addition (release-mode Rust
semantics of `self.v + rhs.v` in `impl Add for NumVal`). -/
def wrap64 (x : Int) : Int := (x + 2 ^ 63) % 2 ^ 64 - 2 ^ 63

/-- Two's-complement wraparound of the `i32` increment `var_counter += 1`
(release-mode Rust semantics). -/
def wrap32 (x : Int) : Int := (x + 2 ^ 31) % 2 ^ 32 - 2 ^ 31

/-- A heap cell's content: one value of either sort. -/
inductive HVal : Type
  | num : Int → HVal
  | bool : Bool → HVal
deriving DecidableEq, Repr

/-- Project a heap cell's content at a sort (total, with the sort's
default on a sort mismatch; well-typed executions never hit that branch). -/
def HVal.proj : HVal → (t : Ty) → t.denote
  | .num v, .tnum => v
  | .bool b, .tbool => b
  | .num _, .tbool => false
  | .bool _, .tnum => 0

/-- Injection of a value into a heap cell's content. -/
def Ty.inj : (t : Ty) → t.denote → HVal
  | .tnum, v => .num v
  | .tbool, b => .bool b

theorem HVal.proj_inj (t : Ty) (v : t.denote) : (Ty.inj t v).proj t = v := by
  cases t <;> rfl

/-- The global mutable state of the program: the `var_counter` static
(an `i32`), the heap of allocated cells (a cell's address is its index in
this list; in Rust the cell is an `Rc<RefCell<_>>` and the address models
pointer identity), and the number of binder-function applications
performed so far (instrumentation for the binder-invocation-once
property; it corresponds to a side-effecting counter embedded in a test
binder). -/
structure St where
  counter : Int
  heap : List HVal
  binderCalls : Nat
deriving DecidableEq, Repr

/-- The initial process state: `static mut var_counter: i32 = 0`, no cells. -/
def st0 : St := ⟨0, [], 0⟩

/-- Read the cell at address `a` at sort `t` (the `self.var_val.borrow().clone()`
of `VariableExp::interpret` / `run`). -/
def readAt (h : List HVal) (t : Ty) (a : Nat) : t.denote :=
  match h.get? a with
  | some hv => hv.proj t
  | none => Ty.defaultVal t

/-- Overwrite the cell at address `a` (the `RefCell::replace` in
`LetStagedExp::run`). -/
def writeCell (s : St) (a : Nat) (hv : HVal) : St :=
  { s with heap := s.heap.set a hv }

/-- Bump the binder-application count (each occurrence of
`(self.exp2)(exp1_var...)` in the source). -/
def bump (s : St) : St :=
  { s with binderCalls := s.binderCalls + 1 }

/-- A variable cell handle: the `i32` debug id and the heap address of the
shared slot (`VariableExp<T>`; `t` is the phantom value sort `T`). -/
structure VariableExp (t : Ty) where
  id : Int
  addr : Nat
deriving DecidableEq, Repr

/-- `VariableExp::fresh_with_val(v)`: increment the global counter
(wrapping at `i32` overflow), allocate a new cell holding `v`, return the
handle. -/
def VariableExp.fresh_with_val (t : Ty) (v : t.denote) (s : St) :
    VariableExp t × St :=
  (⟨wrap32 (s.counter + 1), s.heap.length⟩,
   { counter := wrap32 (s.counter + 1),
     heap := s.heap ++ [Ty.inj t v],
     binderCalls := s.binderCalls })

/-- `VariableExp::fresh()`: like `fresh_with_val` but seeded with
`T::default()`. -/
def VariableExp.fresh (t : Ty) (s : St) : VariableExp t × St :=
  VariableExp.fresh_with_val t (Ty.defaultVal t) s

/-- Expression trees, following the five `Exp` implementations of the
source. `letE` keeps the binder-as-function encoding of `LetExp`: the
body is a host function from a variable handle to an expression. -/
inductive Exp : Ty → Type
  | constant : {t : Ty} → t.denote → Exp t
  | var : {t : Ty} → VariableExp t → Exp t
  | add : Exp .tnum → Exp .tnum → Exp .tnum
  | lessThan : Exp .tnum → Exp .tnum → Exp .tbool
  | letE : {t u : Ty} → Exp t → (VariableExp t → Exp u) → Exp u

/-- Staged trees, following the `StagedExp` implementations: first-order
data, no binder functions. A staged Let (`LetStagedExp`) holds the staged
bound expression, the cell, and the already-elaborated staged body. -/
inductive StagedExp : Ty → Type
  | constant : {t : Ty} → t.denote → StagedExp t
  | var : {t : Ty} → VariableExp t → StagedExp t
  | add : StagedExp .tnum → StagedExp .tnum → StagedExp .tnum
  | lessThan : StagedExp .tnum → StagedExp .tnum → StagedExp .tbool
  | letS : {t u : Ty} → StagedExp t → VariableExp t → StagedExp u →
      StagedExp u

/-- `Exp::interpret`, with the state threaded in the source's evaluation
order. For `LetExp` (lines 244-247): interpret the bound expression, make
a fresh cell pre-seeded with its value, apply the binder to the handle,
interpret the body. -/
def interpret : {t : Ty} → Exp t → St → t.denote × St
  | _, .constant v, s => (v, s)
  | t, .var x, s => (readAt s.heap t x.addr, s)
  | _, .add e1 e2, s =>
      let p1 := interpret e1 s
      let p2 := interpret e2 p1.2
      (wrap64 (p1.1 + p2.1), p2.2)
  | _, .lessThan e1 e2, s =>
      let p1 := interpret e1 s
      let p2 := interpret e2 p1.2
      (decide (p1.1 < p2.1), p2.2)
  | _, .letE e1 f, s =>
      let p1 := interpret e1 s
      let q := VariableExp.fresh_with_val _ p1.1 p1.2
      interpret (f q.1) (bump q.2)

/-- `Exp::stage`. For `LetExp` (lines 234-242): allocate one fresh
default-valued cell, apply the binder to it and stage the resulting body,
then stage the bound expression, and return the staged Let. -/
def stage : {t : Ty} → Exp t → St → StagedExp t × St
  | _, .constant v, s => (.constant v, s)
  | _, .var x, s => (.var x, s)
  | _, .add e1 e2, s =>
      let p1 := stage e1 s
      let p2 := stage e2 p1.2
      (.add p1.1 p2.1, p2.2)
  | _, .lessThan e1 e2, s =>
      let p1 := stage e1 s
      let p2 := stage e2 p1.2
      (.lessThan p1.1 p2.1, p2.2)
  | _, .letE e1 f, s =>
      let q := VariableExp.fresh _ s
      let p2 := stage (f q.1) (bump q.2)
      let p1 := stage e1 p2.2
      (.letS p1.1 q.1 p2.1, p1.2)

/-- `StagedExp::run`. For `LetStagedExp` (lines 253-256): run the staged
bound expression, `replace` its value into the already-allocated cell,
run the staged body. -/
def run : {t : Ty} → StagedExp t → St → t.denote × St
  | _, .constant v, s => (v, s)
  | t, .var x, s => (readAt s.heap t x.addr, s)
  | _, .add s1 s2, s =>
      let p1 := run s1 s
      let p2 := run s2 p1.2
      (wrap64 (p1.1 + p2.1), p2.2)
  | _, .lessThan s1 s2, s =>
      let p1 := run s1 s
      let p2 := run s2 p1.2
      (decide (p1.1 < p2.1), p2.2)
  | _, .letS s1 x s2, s =>
      let p1 := run s1 s
      run s2 (writeCell p1.2 x.addr (Ty.inj _ p1.1))

/-- Iterated `run`, keeping only the state: `runN n s` runs the staged
tree `s` `n` times in a row. -/
def runN : Nat → {t : Ty} → StagedExp t → St → St
  | 0, _, _, s => s
  | n + 1, _, e, s => runN n e (run e s).2

/-!
Closed programs. The spec's universally quantified properties range over
"expression trees built only from Constant, Addition, LessThan, and Let
nodes (with pure binder functions)". `CExp G t` is exactly that class of
trees, with let-bound variables in de Bruijn form (context `G`);
`toExp` realises such a tree through the source constructors, each
binder being the pure function that drops the received handle into the
body's variable positions.
-/

/-- De Bruijn witness that sort `t` occurs in context `G`. -/
inductive Mem : Ty → List Ty → Type
  | here : {t : Ty} → {G : List Ty} → Mem t (t :: G)
  | there : {t u : Ty} → {G : List Ty} → Mem t G → Mem t (u :: G)

/-- An assignment of a variable cell handle to each context entry. -/
def VEnv (G : List Ty) : Type := ∀ t : Ty, Mem t G → VariableExp t

/-- An assignment of a plain value to each context entry. -/
def DEnv (G : List Ty) : Type := ∀ t : Ty, Mem t G → t.denote

/-- The empty handle environment. -/
def vnil : VEnv [] := fun _ m => nomatch m

/-- The empty value environment. -/
def dnil : DEnv [] := fun _ m => nomatch m

/-- Extend a handle environment. -/
def vcons {t : Ty} {G : List Ty} (x : VariableExp t) (env : VEnv G) :
    VEnv (t :: G) :=
  fun _ m =>
    match m with
    | .here => x
    | .there m2 => env _ m2

/-- Extend a value environment. -/
def dcons {t : Ty} {G : List Ty} (v : t.denote) (env : DEnv G) :
    DEnv (t :: G) :=
  fun _ m =>
    match m with
    | .here => v
    | .there m2 => env _ m2

/-- Trees built only from Constant, Addition, LessThan, and Let nodes;
`varRef` is a let-bound variable occurrence. -/
inductive CExp : List Ty → Ty → Type
  | constant : {G : List Ty} → {t : Ty} → t.denote → CExp G t
  | varRef : {G : List Ty} → {t : Ty} → Mem t G → CExp G t
  | add : {G : List Ty} → CExp G .tnum → CExp G .tnum → CExp G .tnum
  | lessThan : {G : List Ty} → CExp G .tnum → CExp G .tnum → CExp G .tbool
  | letE : {G : List Ty} → {t u : Ty} → CExp G t → CExp (t :: G) u →
      CExp G u

/-- Build the source-level expression tree of a closed program: each
`letE` becomes a `LetExp` whose binder is the pure function placing the
received handle at the bound variable's occurrences. -/
def toExp : {G : List Ty} → {t : Ty} → CExp G t → VEnv G → Exp t
  | _, _, .constant v, _ => .constant v
  | _, _, .varRef m, env => .var (env _ m)
  | _, _, .add c1 c2, env => .add (toExp c1 env) (toExp c2 env)
  | _, _, .lessThan c1 c2, env => .lessThan (toExp c1 env) (toExp c2 env)
  | _, _, .letE c1 c2, env => .letE (toExp c1 env)
      (fun x => toExp c2 (vcons x env))

/-- The pure (state-free) value of a closed program under a value
environment; the bridge both `interpret` and `stage`/`run` are proved to
compute. -/
def denotC : {G : List Ty} → {t : Ty} → CExp G t → DEnv G → t.denote
  | _, _, .constant v, _ => v
  | _, _, .varRef m, env => env _ m
  | _, _, .add c1 c2, env => wrap64 (denotC c1 env + denotC c2 env)
  | _, _, .lessThan c1 c2, env => decide (denotC c1 env < denotC c2 env)
  | _, _, .letE c1 c2, env => denotC c2 (dcons (denotC c1 env) env)

/-- `SRel env c s lo hi`: the staged tree `s` is a staging of the program
`c` whose let-cells occupy exactly the heap addresses `[lo, hi)`, in
staging's allocation order (a Let's own cell first, then the body's
cells, then the bound expression's cells), with free variables mapped by
`env`. -/
inductive SRel : {G : List Ty} → {t : Ty} → VEnv G → CExp G t →
    StagedExp t → Nat → Nat → Prop
  | constant : {G : List Ty} → {t : Ty} → {env : VEnv G} → {v : t.denote} →
      {n : Nat} → SRel env (.constant v) (.constant v) n n
  | varRef : {G : List Ty} → {t : Ty} → {env : VEnv G} → (m : Mem t G) →
      {n : Nat} → SRel env (.varRef m) (.var (env t m)) n n
  | add : {G : List Ty} → {env : VEnv G} → {c1 c2 : CExp G .tnum} →
      {s1 s2 : StagedExp .tnum} → {n m k : Nat} →
      SRel env c1 s1 n m → SRel env c2 s2 m k →
      SRel env (.add c1 c2) (.add s1 s2) n k
  | lessThan : {G : List Ty} → {env : VEnv G} → {c1 c2 : CExp G .tnum} →
      {s1 s2 : StagedExp .tnum} → {n m k : Nat} →
      SRel env c1 s1 n m → SRel env c2 s2 m k →
      SRel env (.lessThan c1 c2) (.lessThan s1 s2) n k
  | letE : {G : List Ty} → {t u : Ty} → {env : VEnv G} → {c1 : CExp G t} →
      {c2 : CExp (t :: G) u} → {s1 : StagedExp t} → {s2 : StagedExp u} →
      {n m k : Nat} → (x : VariableExp t) → x.addr = n →
      SRel (vcons x env) c2 s2 (n + 1) m → SRel env c1 s1 m k →
      SRel env (.letE c1 c2) (.letS s1 x s2) n k

theorem SRel.le {G : List Ty} {t : Ty} {env : VEnv G} {c : CExp G t}
    {s : StagedExp t} {lo hi : Nat} (h : SRel env c s lo hi) : lo ≤ hi := by
  induction h with
  | constant => exact Nat.le_refl _
  | varRef => exact Nat.le_refl _
  | add _ _ ih1 ih2 => exact Nat.le_trans ih1 ih2
  | lessThan _ _ ih1 ih2 => exact Nat.le_trans ih1 ih2
  | letE _ _ _ _ ih2 ih1 =>
      exact Nat.le_trans (Nat.le_succ _) (Nat.le_trans ih2 ih1)

/-!
Core lemmas: `interpret` only reads and appends cells; `run` neither
allocates nor applies binders; `interpret`, and `stage` followed by
`run`, both compute the pure value `denotC`.
-/

theorem readAt_congr {h1 h2 : List HVal} {a : Nat}
    (h : h2.get? a = h1.get? a) (t : Ty) : readAt h2 t a = readAt h1 t a := by
  unfold readAt
  rw [h]

theorem readAt_append (h : List HVal) (hv : HVal) (t : Ty) :
    readAt (h ++ [hv]) t h.length = hv.proj t := by
  unfold readAt
  rw [List.get?_concat_length]

/-- `interpret` never mutates a pre-existing cell: the heap only grows,
and every address that existed before the call still holds the same
content afterwards. -/
theorem interpret_frame {t : Ty} (e : Exp t) (s : St) :
    s.heap.length ≤ (interpret e s).2.heap.length ∧
      ∀ a : Nat, a < s.heap.length →
        (interpret e s).2.heap.get? a = s.heap.get? a := by
  induction e generalizing s with
  | constant v => exact ⟨Nat.le_refl _, fun a _ => rfl⟩
  | var x => exact ⟨Nat.le_refl _, fun a _ => rfl⟩
  | add e1 e2 ih1 ih2 =>
      obtain ⟨hl1, hp1⟩ := ih1 s
      obtain ⟨hl2, hp2⟩ := ih2 (interpret e1 s).2
      refine ⟨Nat.le_trans hl1 hl2, fun a ha => ?_⟩
      show (interpret e2 (interpret e1 s).2).2.heap.get? a = s.heap.get? a
      rw [hp2 a (Nat.lt_of_lt_of_le ha hl1), hp1 a ha]
  | lessThan e1 e2 ih1 ih2 =>
      obtain ⟨hl1, hp1⟩ := ih1 s
      obtain ⟨hl2, hp2⟩ := ih2 (interpret e1 s).2
      refine ⟨Nat.le_trans hl1 hl2, fun a ha => ?_⟩
      show (interpret e2 (interpret e1 s).2).2.heap.get? a = s.heap.get? a
      rw [hp2 a (Nat.lt_of_lt_of_le ha hl1), hp1 a ha]
  | letE e1 f ih1 ihf =>
      obtain ⟨hl1, hp1⟩ := ih1 s
      set s1 := (interpret e1 s).2 with hs1
      set q := VariableExp.fresh_with_val _ (interpret e1 s).1 s1 with hq
      have hq2 : q.2.heap = s1.heap ++ [Ty.inj _ (interpret e1 s).1] := rfl
      obtain ⟨hl2, hp2⟩ := ihf q.1 (bump q.2)
      have hlen : (bump q.2).heap.length = s1.heap.length + 1 := by
        show (s1.heap ++ [Ty.inj _ (interpret e1 s).1]).length = _
        simp
      constructor
      · refine Nat.le_trans hl1 (Nat.le_trans ?_ hl2)
        rw [hlen]
        exact Nat.le_succ _
      · intro a ha
        have ha1 : a < s1.heap.length := Nat.lt_of_lt_of_le ha hl1
        show (interpret (f q.1) (bump q.2)).2.heap.get? a = s.heap.get? a
        rw [hp2 a (by rw [hlen]; exact Nat.lt_succ_of_lt ha1)]
        show (s1.heap ++ [Ty.inj _ (interpret e1 s).1]).get? a = s.heap.get? a
        rw [List.get?_append ha1, hp1 a ha]

/-- `run` performs no allocation and no binder application: the heap
length, the id counter, and the binder-call count are all unchanged. -/
theorem run_state {t : Ty} (e : StagedExp t) (s : St) :
    (run e s).2.heap.length = s.heap.length ∧
      (run e s).2.counter = s.counter ∧
      (run e s).2.binderCalls = s.binderCalls := by
  induction e generalizing s with
  | constant v => exact ⟨rfl, rfl, rfl⟩
  | var x => exact ⟨rfl, rfl, rfl⟩
  | add s1 s2 ih1 ih2 =>
      obtain ⟨a1, b1, c1⟩ := ih1 s
      obtain ⟨a2, b2, c2⟩ := ih2 (run s1 s).2
      exact ⟨a2.trans a1, b2.trans b1, c2.trans c1⟩
  | lessThan s1 s2 ih1 ih2 =>
      obtain ⟨a1, b1, c1⟩ := ih1 s
      obtain ⟨a2, b2, c2⟩ := ih2 (run s1 s).2
      exact ⟨a2.trans a1, b2.trans b1, c2.trans c1⟩
  | letS s1 x s2 ih1 ih2 =>
      obtain ⟨a1, b1, c1⟩ := ih1 s
      obtain ⟨a2, b2, c2⟩ :=
        ih2 (writeCell (run s1 s).2 x.addr (Ty.inj _ (run s1 s).1))
      refine ⟨?_, ?_, ?_⟩
      · show (run s2 _).2.heap.length = _
        rw [a2]
        show ((run s1 s).2.heap.set _ _).length = _
        rw [List.length_set, a1]
      · exact b2.trans b1
      · exact c2.trans c1

/-- `interpret` on the tree of a closed program computes the program's
pure value, given that the heap agrees with the value environment on the
free variables' cells. -/
theorem interpret_sound {G : List Ty} {t : Ty} (c : CExp G t) :
    ∀ (env : VEnv G) (rho : DEnv G) (s : St),
      (∀ (t2 : Ty) (m : Mem t2 G), (env t2 m).addr < s.heap.length) →
      (∀ (t2 : Ty) (m : Mem t2 G),
        readAt s.heap t2 (env t2 m).addr = rho t2 m) →
      (interpret (toExp c env) s).1 = denotC c rho := by
  induction c with
  | constant v => intro env rho s _ _; rfl
  | varRef m =>
      intro env rho s _ hag
      exact hag _ m
  | add c1 c2 ih1 ih2 =>
      intro env rho s hlt hag
      obtain ⟨hfl, hfp⟩ := interpret_frame (toExp c1 env) s
      have h1 := ih1 env rho s hlt hag
      have h2 := ih2 env rho (interpret (toExp c1 env) s).2
        (fun t2 m => Nat.lt_of_lt_of_le (hlt t2 m) hfl)
        (fun t2 m => by
          rw [readAt_congr (hfp _ (hlt t2 m)) t2]; exact hag t2 m)
      show wrap64 ((interpret (toExp c1 env) s).1 +
        (interpret (toExp c2 env) (interpret (toExp c1 env) s).2).1) = _
      rw [h1, h2]; rfl
  | lessThan c1 c2 ih1 ih2 =>
      intro env rho s hlt hag
      obtain ⟨hfl, hfp⟩ := interpret_frame (toExp c1 env) s
      have h1 := ih1 env rho s hlt hag
      have h2 := ih2 env rho (interpret (toExp c1 env) s).2
        (fun t2 m => Nat.lt_of_lt_of_le (hlt t2 m) hfl)
        (fun t2 m => by
          rw [readAt_congr (hfp _ (hlt t2 m)) t2]; exact hag t2 m)
      show (decide ((interpret (toExp c1 env) s).1 <
        (interpret (toExp c2 env) (interpret (toExp c1 env) s).2).1) : Bool)
          = _
      rw [h1, h2]; rfl
  | @letE G2 t1 u c1 c2 ih1 ih2 =>
      intro env rho s hlt hag
      obtain ⟨hfl, hfp⟩ := interpret_frame (toExp c1 env) s
      have h1 := ih1 env rho s hlt hag
      set s1 := (interpret (toExp c1 env) s).2 with hs1
      set q := VariableExp.fresh_with_val _ (interpret (toExp c1 env) s).1 s1
        with hq
      have hqheap : (bump q.2).heap =
          s1.heap ++ [Ty.inj _ (interpret (toExp c1 env) s).1] := rfl
      have hqlen : (bump q.2).heap.length = s1.heap.length + 1 := by
        rw [hqheap]; simp
      have hbody := ih2 (vcons q.1 env) (dcons (denotC c1 rho) rho)
        (bump q.2)
        (fun t2 m => by
          cases m with
          | here =>
              show s1.heap.length < (bump q.2).heap.length
              rw [hqlen]; exact Nat.lt_succ_self _
          | there m2 =>
              show (env t2 m2).addr < (bump q.2).heap.length
              rw [hqlen]
              exact Nat.lt_succ_of_lt
                (Nat.lt_of_lt_of_le (hlt t2 m2) hfl))
        (fun t2 m => by
          cases m with
          | here =>
              show readAt (bump q.2).heap t1 s1.heap.length = _
              rw [hqheap, readAt_append, HVal.proj_inj]
              exact h1
          | there m2 =>
              show readAt (bump q.2).heap t2 (env t2 m2).addr
                = rho t2 m2
              have ha : (env t2 m2).addr < s1.heap.length :=
                Nat.lt_of_lt_of_le (hlt t2 m2) hfl
              have hg : (bump q.2).heap.get? (env t2 m2).addr
                  = s.heap.get? (env t2 m2).addr := by
                rw [hqheap, List.get?_append ha, hfp _ (hlt t2 m2)]
              rw [readAt_congr hg t2]
              exact hag t2 m2)
      exact hbody

/-- `stage` on the tree of a closed program produces a staged tree
related to the program by `SRel`: its let-cells are exactly the cells
freshly allocated during staging, at addresses
`[s.heap.length, (stage ...).2.heap.length)`. -/
theorem stage_srel {G : List Ty} {t : Ty} (c : CExp G t) :
    ∀ (env : VEnv G) (s : St),
      SRel env c (stage (toExp c env) s).1 s.heap.length
        (stage (toExp c env) s).2.heap.length := by
  induction c with
  | constant v => intro env s; exact SRel.constant
  | varRef m => intro env s; exact SRel.varRef m
  | add c1 c2 ih1 ih2 =>
      intro env s
      exact SRel.add (ih1 env s) (ih2 env (stage (toExp c1 env) s).2)
  | lessThan c1 c2 ih1 ih2 =>
      intro env s
      exact SRel.lessThan (ih1 env s) (ih2 env (stage (toExp c1 env) s).2)
  | @letE G2 t1 u c1 c2 ih1 ih2 =>
      intro env s
      set q := VariableExp.fresh t1 s with hq
      have hlen : (bump q.2).heap.length = s.heap.length + 1 := by
        show (s.heap ++ [Ty.inj t1 (Ty.defaultVal t1)]).length = _
        simp
      have h2 := ih2 (vcons q.1 env) (bump q.2)
      rw [hlen] at h2
      have h1 := ih1 env (stage (toExp c2 (vcons q.1 env)) (bump q.2)).2
      exact SRel.letE q.1 rfl h2 h1

/-- Running a staged tree produced from a closed program computes the
program's pure value, and only writes inside the tree's own let-cell
address range `[lo, hi)`: every other address is untouched. -/
theorem run_sound {G : List Ty} {t : Ty} {env : VEnv G} {c : CExp G t}
    {sx : StagedExp t} {lo hi : Nat} (h : SRel env c sx lo hi) :
    ∀ (rho : DEnv G) (s : St), hi ≤ s.heap.length →
      (∀ (t2 : Ty) (m : Mem t2 G), (env t2 m).addr < lo) →
      (∀ (t2 : Ty) (m : Mem t2 G),
        readAt s.heap t2 (env t2 m).addr = rho t2 m) →
      (run sx s).1 = denotC c rho ∧
        ∀ a : Nat, a < lo ∨ hi ≤ a →
          (run sx s).2.heap.get? a = s.heap.get? a := by
  induction h with
  | constant => exact fun rho s _ _ _ => ⟨rfl, fun a _ => rfl⟩
  | varRef m =>
      intro rho s _ _ hag
      exact ⟨hag _ m, fun a _ => rfl⟩
  | @add G2 env c1 c2 s1 s2 n m k h1 h2 ih1 ih2 =>
      intro rho s hhi hlt hag
      have hnm : n ≤ m := h1.le
      have hmk : m ≤ k := h2.le
      obtain ⟨hv1, hf1⟩ := ih1 rho s (Nat.le_trans hmk hhi) hlt hag
      have hlen1 : (run s1 s).2.heap.length = s.heap.length :=
        (run_state s1 s).1
      obtain ⟨hv2, hf2⟩ := ih2 rho (run s1 s).2 (by rw [hlen1]; exact hhi)
        (fun t2 m2 => Nat.lt_of_lt_of_le (hlt t2 m2) hnm)
        (fun t2 m2 => by
          rw [readAt_congr (hf1 _ (Or.inl (hlt t2 m2))) t2]
          exact hag t2 m2)
      constructor
      · show wrap64 ((run s1 s).1 + (run s2 (run s1 s).2).1) = _
        rw [hv1, hv2]; rfl
      · intro a ha
        show (run s2 (run s1 s).2).2.heap.get? a = s.heap.get? a
        rw [hf2 a (ha.imp (fun h => Nat.lt_of_lt_of_le h hnm) id)]
        exact hf1 a (ha.imp id (fun h => Nat.le_trans hmk h))
  | @lessThan G2 env c1 c2 s1 s2 n m k h1 h2 ih1 ih2 =>
      intro rho s hhi hlt hag
      have hnm : n ≤ m := h1.le
      have hmk : m ≤ k := h2.le
      obtain ⟨hv1, hf1⟩ := ih1 rho s (Nat.le_trans hmk hhi) hlt hag
      have hlen1 : (run s1 s).2.heap.length = s.heap.length :=
        (run_state s1 s).1
      obtain ⟨hv2, hf2⟩ := ih2 rho (run s1 s).2 (by rw [hlen1]; exact hhi)
        (fun t2 m2 => Nat.lt_of_lt_of_le (hlt t2 m2) hnm)
        (fun t2 m2 => by
          rw [readAt_congr (hf1 _ (Or.inl (hlt t2 m2))) t2]
          exact hag t2 m2)
      constructor
      · show (decide ((run s1 s).1 < (run s2 (run s1 s).2).1) : Bool) = _
        rw [hv1, hv2]; rfl
      · intro a ha
        show (run s2 (run s1 s).2).2.heap.get? a = s.heap.get? a
        rw [hf2 a (ha.imp (fun h => Nat.lt_of_lt_of_le h hnm) id)]
        exact hf1 a (ha.imp id (fun h => Nat.le_trans hmk h))
  | @letE G2 t1 u env c1 c2 s1 s2 n m k x hx h2 h1 ih2 ih1 =>
      intro rho s hhi hlt hag
      have hnm : n + 1 ≤ m := h2.le
      have hmk : m ≤ k := h1.le
      have hnk : n < k := Nat.lt_of_lt_of_le (Nat.lt_of_succ_le hnm) hmk
      obtain ⟨hv1, hf1⟩ := ih1 rho s hhi
        (fun t2 m2 =>
          Nat.lt_of_lt_of_le (Nat.lt_of_lt_of_le (hlt t2 m2)
            (Nat.le_succ n)) hnm)
        hag
      have hlen1 : (run s1 s).2.heap.length = s.heap.length :=
        (run_state s1 s).1
      set sw := writeCell (run s1 s).2 x.addr (Ty.inj t1 (run s1 s).1)
        with hsw
      have hswlen : sw.heap.length = s.heap.length := by
        show ((run s1 s).2.heap.set _ _).length = _
        rw [List.length_set, hlen1]
      have hxlen : x.addr < (run s1 s).2.heap.length := by
        rw [hlen1, hx]; exact Nat.lt_of_lt_of_le hnk hhi
      have hswx : sw.heap.get? x.addr = some (Ty.inj t1 (run s1 s).1) :=
        List.get?_set_eq_of_lt _ hxlen
      obtain ⟨hv2, hf2⟩ := ih2 (dcons (denotC c1 rho) rho) sw
        (by rw [hswlen]; exact Nat.le_trans hmk hhi)
        (fun t2 m2 => by
          cases m2 with
          | here =>
              show x.addr < n + 1
              rw [hx]
              exact Nat.lt_succ_self n
          | there m3 =>
              exact Nat.lt_succ_of_lt (hlt t2 m3))
        (fun t2 m2 => by
          cases m2 with
          | here =>
              show readAt sw.heap t1 x.addr = denotC c1 rho
              unfold readAt
              rw [hswx]
              show (Ty.inj t1 (run s1 s).1).proj t1 = denotC c1 rho
              rw [HVal.proj_inj, hv1]
          | there m3 =>
              show readAt sw.heap t2 (env t2 m3).addr = rho t2 m3
              have hne : x.addr ≠ (env t2 m3).addr := by
                rw [hx]
                exact fun hcc =>
                  absurd (hcc ▸ hlt t2 m3) (Nat.lt_irrefl n)
              have hg : sw.heap.get? (env t2 m3).addr
                  = s.heap.get? (env t2 m3).addr := by
                show ((run s1 s).2.heap.set _ _).get? _ = _
                rw [List.get?_set_ne _ _ hne]
                exact hf1 _ (Or.inl (Nat.lt_of_lt_of_le (hlt t2 m3)
                  (Nat.le_of_lt (Nat.lt_of_succ_le hnm))))
              rw [readAt_congr hg t2]
              exact hag t2 m3)
      constructor
      · exact hv2
      · intro a ha
        show (run s2 sw).2.heap.get? a = s.heap.get? a
        have hstep1 : (run s2 sw).2.heap.get? a = sw.heap.get? a := by
          refine hf2 a ?_
          rcases ha with hl | hr
          · exact Or.inl (Nat.lt_succ_of_lt hl)
          · exact Or.inr (Nat.le_trans hmk hr)
        have hane : x.addr ≠ a := by
          rw [hx]
          rcases ha with hl | hr
          · omega
          · omega
        have hstep2 : sw.heap.get? a = (run s1 s).2.heap.get? a := by
          show ((run s1 s).2.heap.set _ _).get? _ = _
          rw [List.get?_set_ne _ _ hane]
        have hstep3 : (run s1 s).2.heap.get? a = s.heap.get? a := by
          refine hf1 a ?_
          rcases ha with hl | hr
          · exact Or.inl (Nat.lt_of_lt_of_le hl
              (Nat.le_of_lt (Nat.lt_of_succ_le hnm)))
          · exact Or.inr hr
        rw [hstep1, hstep2, hstep3]

/-!
Helper facts about the wraparound functions, iterated allocation, and
iterated running.
-/

theorem wrap64_eq_self {x : Int} (h1 : -(2 ^ 63) ≤ x) (h2 : x < 2 ^ 63) :
    wrap64 x = x := by
  unfold wrap64
  rw [Int.emod_eq_of_lt (by omega) (by omega)]
  omega

theorem wrap32_eq_self {x : Int} (h1 : -(2 ^ 31) ≤ x) (h2 : x < 2 ^ 31) :
    wrap32 x = x := by
  unfold wrap32
  rw [Int.emod_eq_of_lt (by omega) (by omega)]
  omega

/-- `n` successive cell allocations (each one `interpret` of a Let node
performs one, for instance). -/
def allocN : Nat → St → St
  | 0, s => s
  | n + 1, s => allocN n (VariableExp.fresh_with_val Ty.tnum 0 s).2

/-- As long as the `i32` counter does not overflow, `n` allocations
advance it by exactly `n`. -/
theorem allocN_counter (n : Nat) :
    ∀ s : St, -(2 ^ 31) ≤ s.counter → s.counter + n < 2 ^ 31 →
      (allocN n s).counter = s.counter + n := by
  induction n with
  | zero => intro s _ _; simp [allocN]
  | succ n ih =>
      intro s h1 h2
      have hstep : (VariableExp.fresh_with_val Ty.tnum 0 s).2.counter
          = s.counter + 1 := by
        show wrap32 (s.counter + 1) = s.counter + 1
        exact wrap32_eq_self (by omega) (by omega)
      show (allocN n (VariableExp.fresh_with_val Ty.tnum 0 s).2).counter = _
      rw [ih _ (by rw [hstep]; omega) (by rw [hstep]; push_cast; omega),
        hstep]
      push_cast
      omega

/-- Iterated `run` applies no binder function: the binder-call count is
unchanged no matter how many times the staged tree is run. -/
theorem runN_binderCalls (n : Nat) {t : Ty} (e : StagedExp t) :
    ∀ s : St, (runN n e s).binderCalls = s.binderCalls := by
  induction n with
  | zero => intro s; rfl
  | succ n ih =>
      intro s
      show (runN n e (run e s).2).binderCalls = _
      rw [ih (run e s).2, (run_state e s).2.2]

/-!
The claims.
-/

/-- Claim C1: for every expression tree built only from Constant,
Addition, LessThan, and Let nodes (pure binder functions, no external
mutable input — the class `CExp [] t`, realised through the source
constructors by `toExp`), interpreting the tree yields the same value as
staging it once and then running the staged tree, from any starting
global states. -/
theorem interpret_eq_run_stage (t : Ty) (c : CExp [] t) (s1 s2 : St) :
    (interpret (toExp c vnil) s1).1
      = (run (stage (toExp c vnil) s2).1 (stage (toExp c vnil) s2).2).1 := by
  have hi := interpret_sound c vnil dnil s1
    (fun t2 m => nomatch m) (fun t2 m => nomatch m)
  have hs := stage_srel c vnil s2
  have hr := run_sound hs dnil (stage (toExp c vnil) s2).2 (Nat.le_refl _)
    (fun t2 m => nomatch m) (fun t2 m => nomatch m)
  rw [hi, hr.1]

/-- Claim C2: `interpret` on a Let first interprets the bound
subexpression, then allocates a fresh variable cell (at a
never-before-used address) pre-seeded with that value, then applies the
binder function to that cell to obtain the body, and interprets the
body; in particular `interpret(Let(Constant(5), v => Addition(v,
Constant(3))))` is 8. -/
theorem interpret_let_fresh_seeded_cell :
    (∀ (t u : Ty) (e1 : Exp t) (f : VariableExp t → Exp u) (s : St),
      interpret (Exp.letE e1 f) s =
        interpret
          (f (VariableExp.fresh_with_val t (interpret e1 s).1
              (interpret e1 s).2).1)
          (bump (VariableExp.fresh_with_val t (interpret e1 s).1
              (interpret e1 s).2).2))
    ∧ (∀ (t : Ty) (v : t.denote) (s : St),
        (VariableExp.fresh_with_val t v s).1.addr = s.heap.length
        ∧ s.heap.get? s.heap.length = none
        ∧ readAt (VariableExp.fresh_with_val t v s).2.heap t
            (VariableExp.fresh_with_val t v s).1.addr = v)
    ∧ (interpret (Exp.letE (Exp.constant (5 : Int))
        (fun v => Exp.add (Exp.var v) (Exp.constant (3 : Int)))) st0).1
          = 8 := by
  refine ⟨fun t u e1 f s => rfl, fun t v s => ⟨rfl, ?_, ?_⟩, ?_⟩
  · exact List.get?_eq_none.mpr (Nat.le_refl _)
  · show readAt (s.heap ++ [Ty.inj t v]) t s.heap.length = v
    rw [readAt_append, HVal.proj_inj]
  · decide

/-- Claim C3: `run` on a staged Let runs the staged bound expression,
`replace`s the value into the already-allocated cell, and runs the
already-elaborated staged body, whose result is the result of `run`;
`replace` allocates nothing (heap size and id counter unchanged), and in
fact no `run` allocates at all. -/
theorem run_staged_let_replaces_and_runs_body :
    (∀ (t u : Ty) (s1 : StagedExp t) (x : VariableExp t) (s2 : StagedExp u)
        (s : St),
      run (StagedExp.letS s1 x s2) s =
        run s2 (writeCell (run s1 s).2 x.addr (Ty.inj t (run s1 s).1)))
    ∧ (∀ (s : St) (a : Nat) (hv : HVal),
        (writeCell s a hv).heap.length = s.heap.length
        ∧ (writeCell s a hv).counter = s.counter)
    ∧ (∀ (t : Ty) (e : StagedExp t) (s : St),
        (run e s).2.heap.length = s.heap.length
        ∧ (run e s).2.counter = s.counter) :=
  ⟨fun _ _ _ _ _ _ => rfl,
   fun s a hv => ⟨by show (s.heap.set a hv).length = _; rw [List.length_set],
     rfl⟩,
   fun _ e s => ⟨(run_state e s).1, (run_state e s).2.1⟩⟩

/-- Claim C4: staging a Let applies its binder function exactly once, at
staging time, to a single fresh default-valued cell — the staged result
decomposes as: allocate one fresh cell, apply the binder once (one bump
of the binder-call count, before any recursive staging), stage the body,
stage the bound expression — and running the resulting staged tree any
number of times applies no binder function at all. -/
theorem stage_let_binder_once_run_binder_never :
    (∀ (t u : Ty) (e1 : Exp t) (f : VariableExp t → Exp u) (s : St),
      stage (Exp.letE e1 f) s =
        (StagedExp.letS
          (stage e1 (stage (f (VariableExp.fresh t s).1)
            (bump (VariableExp.fresh t s).2)).2).1
          (VariableExp.fresh t s).1
          (stage (f (VariableExp.fresh t s).1)
            (bump (VariableExp.fresh t s).2)).1,
         (stage e1 (stage (f (VariableExp.fresh t s).1)
            (bump (VariableExp.fresh t s).2)).2).2)
      ∧ (bump (VariableExp.fresh t s).2).binderCalls = s.binderCalls + 1
      ∧ (VariableExp.fresh t s).1.addr = s.heap.length
      ∧ s.heap.get? s.heap.length = none
      ∧ readAt (VariableExp.fresh t s).2.heap t
          (VariableExp.fresh t s).1.addr = Ty.defaultVal t)
    ∧ (∀ (n : Nat) (t : Ty) (e : StagedExp t) (s : St),
        (runN n e s).binderCalls = s.binderCalls) := by
  refine ⟨fun t u e1 f s => ⟨rfl, rfl, rfl, ?_, ?_⟩,
    fun n t e s => runN_binderCalls n e s⟩
  · exact List.get?_eq_none.mpr (Nat.le_refl _)
  · show readAt (s.heap ++ [Ty.inj t (Ty.defaultVal t)]) t s.heap.length
      = Ty.defaultVal t
    rw [readAt_append, HVal.proj_inj]

/-- Claim C5: for a staged tree obtained by staging a Let over a closed
bound expression and body (all staged subexpressions pure and
deterministic), running it twice in succession yields the same result
both times. -/
theorem run_stage_let_twice_same_result (t u : Ty) (c1 : CExp [] t)
    (c2 : CExp [t] u) (s : St) :
    (run (stage (toExp (CExp.letE c1 c2) vnil) s).1
        (stage (toExp (CExp.letE c1 c2) vnil) s).2).1
      = (run (stage (toExp (CExp.letE c1 c2) vnil) s).1
          (run (stage (toExp (CExp.letE c1 c2) vnil) s).1
            (stage (toExp (CExp.letE c1 c2) vnil) s).2).2).1 := by
  have hs := stage_srel (CExp.letE c1 c2) vnil s
  have h1 := run_sound hs dnil (stage (toExp (CExp.letE c1 c2) vnil) s).2
    (Nat.le_refl _) (fun t2 m => nomatch m) (fun t2 m => nomatch m)
  have h2 := run_sound hs dnil
    (run (stage (toExp (CExp.letE c1 c2) vnil) s).1
      (stage (toExp (CExp.letE c1 c2) vnil) s).2).2
    (le_of_eq (run_state _ _).1.symm)
    (fun t2 m => nomatch m) (fun t2 m => nomatch m)
  rw [h1.1, h2.1]

/-- Claim C6: interpreting a LessThan node over two `i64` constants
produces the boolean that is true exactly when the first is strictly
smaller, and running the staged form of the same node produces the same
boolean. -/
theorem lessThan_constants_correct (a b : Int)
    (ha1 : -(2 ^ 63) ≤ a) (ha2 : a < 2 ^ 63)
    (hb1 : -(2 ^ 63) ≤ b) (hb2 : b < 2 ^ 63) (s1 s2 : St) :
    (interpret (Exp.lessThan (Exp.constant a) (Exp.constant b)) s1).1
        = decide (a < b)
    ∧ (run (stage (Exp.lessThan (Exp.constant a) (Exp.constant b)) s2).1
        (stage (Exp.lessThan (Exp.constant a) (Exp.constant b)) s2).2).1
        = decide (a < b) :=
  ⟨rfl, rfl⟩

theorem lessThan_constants_correct_witness :
    (interpret (Exp.lessThan (Exp.constant (1 : Int))
        (Exp.constant (2 : Int))) st0).1 = decide ((1 : Int) < 2)
    ∧ (run (stage (Exp.lessThan (Exp.constant (1 : Int))
          (Exp.constant (2 : Int))) st0).1
        (stage (Exp.lessThan (Exp.constant (1 : Int))
          (Exp.constant (2 : Int))) st0).2).1 = decide ((1 : Int) < 2) :=
  lessThan_constants_correct 1 2 (by norm_num) (by norm_num) (by norm_num)
    (by norm_num) st0 st0

/-- Claim C7 fails as stated: `i64` addition overflows, so the
interpreted sum is not the mathematical `a + b` for every pair of `i64`
values; at `a = i64::MAX`, `b = 1` the result wraps to `i64::MIN`
(release builds; debug builds panic, also contradicting totality). -/
theorem add_constants_overflow_cex :
    (interpret (Exp.add (Exp.constant (9223372036854775807 : Int))
        (Exp.constant (1 : Int))) st0).1
      ≠ (9223372036854775807 : Int) + 1 := by
  decide

/-- Claim C7, amended: for all `i64` values `a`, `b`, interpreting
`Addition(Constant(a), Constant(b))` returns the two's-complement
wraparound of `a + b` (always producing a result), the staged form
yields the same result, and whenever `a + b` lies within `i64` range the
result equals the mathematical sum `a + b`. -/
theorem add_constants_wrap (a b : Int)
    (ha1 : -(2 ^ 63) ≤ a) (ha2 : a < 2 ^ 63)
    (hb1 : -(2 ^ 63) ≤ b) (hb2 : b < 2 ^ 63) (s1 s2 : St) :
    (interpret (Exp.add (Exp.constant a) (Exp.constant b)) s1).1
        = wrap64 (a + b)
    ∧ (run (stage (Exp.add (Exp.constant a) (Exp.constant b)) s2).1
        (stage (Exp.add (Exp.constant a) (Exp.constant b)) s2).2).1
        = wrap64 (a + b)
    ∧ (-(2 ^ 63) ≤ a + b → a + b < 2 ^ 63 →
        (interpret (Exp.add (Exp.constant a) (Exp.constant b)) s1).1
          = a + b) :=
  ⟨rfl, rfl, fun h1 h2 => by
    show wrap64 (a + b) = a + b
    exact wrap64_eq_self h1 h2⟩

theorem add_constants_wrap_witness :
    (interpret (Exp.add (Exp.constant (2 : Int)) (Exp.constant (3 : Int)))
        st0).1 = wrap64 (2 + 3)
    ∧ (run (stage (Exp.add (Exp.constant (2 : Int))
          (Exp.constant (3 : Int))) st0).1
        (stage (Exp.add (Exp.constant (2 : Int))
          (Exp.constant (3 : Int))) st0).2).1 = wrap64 (2 + 3)
    ∧ (-(2 ^ 63) ≤ (2 : Int) + 3 → (2 : Int) + 3 < 2 ^ 63 →
        (interpret (Exp.add (Exp.constant (2 : Int))
          (Exp.constant (3 : Int))) st0).1 = 2 + 3) :=
  add_constants_wrap 2 3 (by norm_num) (by norm_num) (by norm_num)
    (by norm_num) st0 st0

/-- Claim C8 fails as stated: the id counter is an `i32`, so after
2147483646 allocations from the initial state the next allocation gets
id `i32::MAX = 2147483647` and the one after wraps to
`i32::MIN = -2147483648`, which is not strictly greater than the
previously allocated id (release builds; debug builds panic on the
wrapping increment instead of producing any id). -/
theorem fresh_id_wraps_after_i32_overflow :
    ¬ ((VariableExp.fresh Ty.tnum (allocN 2147483646 st0)).1.id
        < (VariableExp.fresh Ty.tnum
            (VariableExp.fresh Ty.tnum (allocN 2147483646 st0)).2).1.id) := by
  have h0 : st0.counter = 0 := rfl
  have hc : (allocN 2147483646 st0).counter = 2147483646 := by
    have h := allocN_counter 2147483646 st0 (by rw [h0]; norm_num)
      (by rw [h0]; norm_num)
    rw [h, h0]
    norm_num
  have hid1 : (VariableExp.fresh Ty.tnum (allocN 2147483646 st0)).1.id
      = 2147483647 := by
    show wrap32 ((allocN 2147483646 st0).counter + 1) = 2147483647
    rw [hc]
    norm_num [wrap32]
  have hc2 : (VariableExp.fresh Ty.tnum (allocN 2147483646 st0)).2.counter
      = 2147483647 := by
    show wrap32 ((allocN 2147483646 st0).counter + 1) = 2147483647
    rw [hc]
    norm_num [wrap32]
  have hid2 : (VariableExp.fresh Ty.tnum
      (VariableExp.fresh Ty.tnum (allocN 2147483646 st0)).2).1.id
      = -2147483648 := by
    show wrap32
      ((VariableExp.fresh Ty.tnum (allocN 2147483646 st0)).2.counter + 1)
        = -2147483648
    rw [hc2]
    norm_num [wrap32]
  rw [hid1, hid2]
  norm_num

/-- Claim C8, amended: each allocation draws its id from the process-wide
counter (the id is the incremented counter value), and as long as the
`i32` counter does not overflow — here: two successive allocations from a
state whose counter `c` satisfies `-2^31 ≤ c` and `c + 2 < 2^31` — each
newly allocated cell's id is strictly greater than the previous one's. -/
theorem fresh_ids_increase_without_overflow (t1 t2 : Ty)
    (v1 : t1.denote) (v2 : t2.denote) (s : St)
    (h1 : -(2 ^ 31) ≤ s.counter) (h2 : s.counter + 2 < 2 ^ 31) :
    (VariableExp.fresh_with_val t1 v1 s).1.id
      < (VariableExp.fresh_with_val t2 v2
          (VariableExp.fresh_with_val t1 v1 s).2).1.id
    ∧ (VariableExp.fresh_with_val t1 v1 s).1.id = s.counter + 1 := by
  have e1 : (VariableExp.fresh_with_val t1 v1 s).1.id = s.counter + 1 := by
    show wrap32 (s.counter + 1) = s.counter + 1
    exact wrap32_eq_self (by linarith) (by linarith)
  have ec : (VariableExp.fresh_with_val t1 v1 s).2.counter
      = s.counter + 1 := by
    show wrap32 (s.counter + 1) = s.counter + 1
    exact wrap32_eq_self (by linarith) (by linarith)
  have e2 : (VariableExp.fresh_with_val t2 v2
      (VariableExp.fresh_with_val t1 v1 s).2).1.id = s.counter + 2 := by
    show wrap32 ((VariableExp.fresh_with_val t1 v1 s).2.counter + 1)
      = s.counter + 2
    rw [ec]
    have : s.counter + 1 + 1 = s.counter + 2 := by ring
    rw [this]
    exact wrap32_eq_self (by linarith) (by linarith)
  rw [e1, e2]
  exact ⟨by linarith, rfl⟩

theorem fresh_ids_increase_without_overflow_witness :
    ((VariableExp.fresh_with_val Ty.tnum 0 st0).1.id
      < (VariableExp.fresh_with_val Ty.tnum 0
          (VariableExp.fresh_with_val Ty.tnum 0 st0).2).1.id
    ∧ (VariableExp.fresh_with_val Ty.tnum 0 st0).1.id = st0.counter + 1) :=
  fresh_ids_increase_without_overflow Ty.tnum Ty.tnum 0 0 st0
    (by norm_num [st0]) (by norm_num [st0])

/-- Claim C9: `interpret` never mutates any pre-existing variable cell:
it only reads cells and allocates brand-new ones, so the heap grows and
every address that existed before the call holds exactly the same
content after the call returns. -/
theorem interpret_never_mutates_existing_cells (t : Ty) (e : Exp t)
    (s : St) :
    s.heap.length ≤ (interpret e s).2.heap.length
    ∧ ∀ a : Nat, a < s.heap.length →
        (interpret e s).2.heap.get? a = s.heap.get? a :=
  interpret_frame e s

theorem interpret_never_mutates_existing_cells_witness :
    (interpret
      (Exp.letE (Exp.constant (5 : Int))
        (fun v => Exp.add (Exp.var v) (Exp.constant (3 : Int))))
      ⟨0, [HVal.num 7], 0⟩).2.heap.get? 0
      = (⟨0, [HVal.num 7], 0⟩ : St).heap.get? 0 :=
  (interpret_never_mutates_existing_cells Ty.tnum
    (Exp.letE (Exp.constant (5 : Int))
      (fun v => Exp.add (Exp.var v) (Exp.constant (3 : Int))))
    ⟨0, [HVal.num 7], 0⟩).2 0 (by decide)

/-- Claim C10: after `run` on a staged Let (obtained by staging a Let
over a closed bound expression and body) returns, the Let's variable cell
— allocated at address `s.heap.length`, the first address staging uses —
still holds exactly the value that this run's evaluation of the staged
bound expression produced: `run` seeds the cell and never restores or
resets it. -/
theorem run_staged_let_cell_keeps_bound_value (t u : Ty) (c1 : CExp [] t)
    (c2 : CExp [t] u) (s : St) :
    readAt
      (run (stage (toExp (CExp.letE c1 c2) vnil) s).1
        (stage (toExp (CExp.letE c1 c2) vnil) s).2).2.heap
      t s.heap.length
    = (run (stage (toExp c1 vnil)
          (stage (toExp c2 (vcons (VariableExp.fresh t s).1 vnil))
            (bump (VariableExp.fresh t s).2)).2).1
        (stage (toExp (CExp.letE c1 c2) vnil) s).2).1 := by
  set q := VariableExp.fresh t s with hqdef
  set P2 := stage (toExp c2 (vcons q.1 vnil)) (bump q.2) with hP2def
  set P1 := stage (toExp c1 vnil) P2.2 with hP1def
  have hblen : (bump q.2).heap.length = s.heap.length + 1 := by
    show (s.heap ++ [Ty.inj t (Ty.defaultVal t)]).length = _
    simp
  have h2 := stage_srel c2 (vcons q.1 vnil) (bump q.2)
  rw [hblen] at h2
  have h1 := stage_srel c1 vnil P2.2
  have hle1 : s.heap.length + 1 ≤ P2.2.heap.length := h2.le
  have hle2 : P2.2.heap.length ≤ P1.2.heap.length := h1.le
  set pb := run P1.1 P1.2 with hpbdef
  have hpblen : pb.2.heap.length = P1.2.heap.length := (run_state _ _).1
  set sw := writeCell pb.2 q.1.addr (Ty.inj t pb.1) with hswdef
  have hqaddr : q.1.addr = s.heap.length := rfl
  have hswlen : sw.heap.length = P1.2.heap.length := by
    show (pb.2.heap.set _ _).length = _
    rw [List.length_set, hpblen]
  have hsget : sw.heap.get? s.heap.length = some (Ty.inj t pb.1) := by
    show (pb.2.heap.set q.1.addr _).get? s.heap.length = _
    rw [hqaddr]
    exact List.get?_set_eq_of_lt _ (by rw [hpblen]; omega)
  have hr2 := run_sound h2 (dcons pb.1 dnil) sw
    (by rw [hswlen]; exact hle2)
    (fun t2 m => by
      cases m with
      | here =>
          show q.1.addr < s.heap.length + 1
          rw [hqaddr]
          exact Nat.lt_succ_self _
      | there m3 => exact nomatch m3)
    (fun t2 m => by
      cases m with
      | here =>
          show readAt sw.heap t q.1.addr = pb.1
          rw [hqaddr]
          unfold readAt
          rw [hsget]
          show (Ty.inj t pb.1).proj t = pb.1
          exact HVal.proj_inj t pb.1
      | there m3 => exact nomatch m3)
  have hframe := hr2.2 s.heap.length (Or.inl (Nat.lt_succ_self _))
  show readAt (run P2.1 sw).2.heap t s.heap.length = pb.1
  unfold readAt
  rw [hframe, hsget]
  show (Ty.inj t pb.1).proj t = pb.1
  exact HVal.proj_inj t pb.1
